import Mathlib

/-!
Verification of the silverbullet publish plug (src/publish.ts).

The embedding models:
- the parse-tree rewrite pass (`cleanMarkdown` and its node callback),
- attachment collection (`collectAttachments`),
- the page-selection loop and `publishAll` orchestration,
- prior-output cleanup and manifest (`index.json`) generation.

The generic tree utilities (`replaceNodesMatching`, `renderToText`,
`collectNodesOfType`) live in the external `$sb/lib/tree.ts` library, not in
this repository; they are modelled from the specification (a depth-first
traversal with three outcomes per visited node: keep / delete / replace with a
literal text node; plain-text serialization; collection of nodes of a type in
traversal order).
-/

namespace Publish

/-- A parse-tree node: optional `type`, optional `text`, list of children
(an absent `children` field and an empty list behave identically for every
operation modelled here). -/
inductive ParseTree where
  | node (type? : Option String) (text? : Option String) (children : List ParseTree)

def ParseTree.typeOf : ParseTree → Option String
  | .node t _ _ => t

def ParseTree.textOf : ParseTree → Option String
  | .node _ t _ => t

def ParseTree.childrenOf : ParseTree → List ParseTree
  | .node _ _ cs => cs

/-- Outcome of the rewrite callback for one visited node.
`keep` is the TS callback returning `undefined`, `delete` is returning `null`,
`replace` is returning a substitute node. -/
inductive SubstResult where
  | keep
  | delete
  | replace (t : ParseTree)

mutual

/-- Modelled from the spec: `replaceNodesMatching` of `$sb/lib/tree.ts` (not in
this repository) — a depth-first rewrite where each visited node gets one of
three outcomes: leave as is (and recurse into its children), delete the node
from the tree, or replace it with the returned node (not recursed into).
The callback may throw (malformed node shapes), modelled with `Except`.
Deleting the root yields `none`. -/
def rewriteTree (f : ParseTree → Except Unit SubstResult) :
    ParseTree → Except Unit (Option ParseTree)
  | .node ty tx cs =>
    match f (ParseTree.node ty tx cs) with
    | .error e => .error e
    | .ok .delete => .ok none
    | .ok (.replace r) => .ok (some r)
    | .ok .keep =>
      match rewriteList f cs with
      | .error e => .error e
      | .ok cs2 => .ok (some (ParseTree.node ty tx cs2))

def rewriteList (f : ParseTree → Except Unit SubstResult) :
    List ParseTree → Except Unit (List ParseTree)
  | [] => .ok []
  | t :: ts =>
    match rewriteTree f t with
    | .error e => .error e
    | .ok none => rewriteList f ts
    | .ok (some t2) =>
      match rewriteList f ts with
      | .error e => .error e
      | .ok ts2 => .ok (t2 :: ts2)

end

mutual

/-- Modelled from the spec: `renderToText` of `$sb/lib/tree.ts` (not in this
repository) — plain-text serialization of a tree: a node with a `text` field
renders as that text, otherwise as the concatenation of its children. -/
def renderToText : ParseTree → String
  | .node _ (some tx) _ => tx
  | .node _ none cs => renderListToText cs

def renderListToText : List ParseTree → String
  | [] => ""
  | t :: ts => renderToText t ++ renderListToText ts

end

mutual

/-- Modelled from the spec: `collectNodesOfType` of `$sb/lib/tree.ts` (not in
this repository) — every node of the given type, in depth-first traversal
order, duplicates permitted. -/
def collectNodesOfType (ty : String) : ParseTree → List ParseTree
  | .node t tx cs =>
    if t = some ty then ParseTree.node t tx cs :: collectNodesOfTypeList ty cs
    else collectNodesOfTypeList ty cs

def collectNodesOfTypeList (ty : String) : List ParseTree → List ParseTree
  | [] => []
  | t :: ts => collectNodesOfType ty t ++ collectNodesOfTypeList ty ts

end

mutual

/-- `true` iff some node in the tree (the root included) has the given type. -/
def hasType (ty : String) : ParseTree → Bool
  | .node t _ cs => (t == some ty) || hasTypeList ty cs

def hasTypeList (ty : String) : List ParseTree → Bool
  | [] => false
  | c :: cs => hasType ty c || hasTypeList ty cs

end

/-- `hasType` lifted to the possibly-deleted root. -/
def hasTypeO (ty : String) : Option ParseTree → Bool
  | none => false
  | some t => hasType ty t

/-- The `PublishConfig` type of src/publish.ts, merged over the defaults
`removeHashtags = true`, `generateIndexJson = true`. -/
structure PublishConfig where
  title : Option String := none
  indexPage : Option String := none
  removeHashtags : Bool := true
  publishAll : Bool := false
  tags : Option (List String) := none
  prefixes : Option (List String) := none
  template : Option String := none
  generateIndexJson : Bool := true

/-- `a.startsWith(b)` of JavaScript: `b`'s characters are a prefix of
`a`'s. -/
def listStartsWith : List Char → List Char → Bool
  | _, [] => true
  | [], _ :: _ => false
  | a :: as, b :: bs => a == b && listStartsWith as bs

def strStartsWith (s pre : String) : Bool :=
  listStartsWith s.data pre.data

/-- `s.trim()` of JavaScript: leading and trailing whitespace removed. -/
def trimString (s : String) : String :=
  String.mk (((s.data.dropWhile Char.isWhitespace).reverse.dropWhile
    Char.isWhitespace).reverse)

/-- `if (page.includes("@")) page = page.split("@")[0]` of the WikiLink
branch of `cleanMarkdown`: strip everything from the first `@` on
(`split("@")[0]` is the part before the first separator). -/
def stripVersion (page : String) : String :=
  if page.data.contains '@' then
    String.mk (page.data.takeWhile (fun c => c ≠ '@'))
  else page

/-- `n.children![1].children![0].text!` of the WikiLink branch of
`cleanMarkdown`; a missing child or missing text throws in the source
(the value is used right after), modelled as `Except.error`. -/
def wikiTarget (n : ParseTree) : Except Unit String :=
  match (n.childrenOf).get? 1 with
  | none => .error ()
  | some c1 =>
    match (c1.childrenOf).get? 0 with
    | none => .error ()
    | some c0 =>
      match c0.textOf with
      | none => .error ()
      | some s => .ok s

/-- The literal text node `\x7b text: s \x7d` used as a replacement:
no type, no children. -/
def textNode (s : String) : ParseTree :=
  ParseTree.node none (some s) []

/-- The node callback passed to `replaceNodesMatching` by `cleanMarkdown`
(src/publish.ts lines 223-245): replace a WikiLink to a page outside
`validPages` (after `@`-suffix stripping) with the literal text `_page_`;
delete CommentBlock and Comment nodes; delete Hashtag nodes when
`removeHashtags` is set; keep anything else. A WikiLink to a valid page
falls through the remaining type tests (its type matches none of them)
and is kept. -/
def cleanSubst (publishConfig : PublishConfig) (validPages : List String)
    (n : ParseTree) : Except Unit SubstResult :=
  if n.typeOf = some "WikiLink" then
    match wikiTarget n with
    | .error e => .error e
    | .ok page0 =>
      if validPages.contains (stripVersion page0) then .ok .keep
      else .ok (.replace (textNode ("_" ++ stripVersion page0 ++ "_")))
  else if n.typeOf = some "CommentBlock" ∨ n.typeOf = some "Comment" then
    .ok .delete
  else if n.typeOf = some "Hashtag" then
    if publishConfig.removeHashtags then .ok .delete else .ok .keep
  else .ok .keep

/-- The tree as left by `cleanMarkdown`'s `replaceNodesMatching` pass, which
rewrites `mdTree` in place in the source. -/
def cleanTree (publishConfig : PublishConfig) (validPages : List String)
    (mdTree : ParseTree) : Except Unit (Option ParseTree) :=
  rewriteTree (cleanSubst publishConfig validPages) mdTree

/-- Plain-text rendering of the possibly-deleted root. -/
def renderOptText : Option ParseTree → String
  | none => ""
  | some t => renderToText t

/-- `cleanMarkdown` of src/publish.ts: rewrite the tree, then
`renderToText(mdTree).trim()`. -/
def cleanMarkdown (mdTree : ParseTree) (publishConfig : PublishConfig)
    (validPages : List String) : Except Unit String :=
  match cleanTree publishConfig validPages mdTree with
  | .error e => .error e
  | .ok o => .ok (trimString (renderOptText o))

/-- `a.indexOf(b) !== -1` of JavaScript: `b`'s characters occur contiguously
inside `a`'s. -/
def listIsInfixOf (pat : List Char) : List Char → Bool
  | [] => pat.isEmpty
  | c :: cs => listStartsWith (c :: cs) pat || listIsInfixOf pat cs

/-- `url.indexOf("://") === -1` is false, i.e. the text contains the scheme
separator `"://"` as a substring. -/
def containsScheme (s : String) : Bool :=
  listIsInfixOf "://".data s.data

/-- `node.children![0].text!` of `collectAttachments`: the text of the URL
node's first child; a missing child or text makes the source throw when the
value is used, modelled as `Except.error`. -/
def urlText (n : ParseTree) : Except Unit String :=
  match (n.childrenOf).get? 0 with
  | none => .error ()
  | some c0 =>
    match c0.textOf with
    | none => .error ()
    | some s => .ok s

/-- The `forEach` accumulation of `collectAttachments`: over the collected
URL nodes in order, push the node's text when it contains no `"://"`. -/
def collectLoop : List ParseTree → List String → Except Unit (List String)
  | [], acc => .ok acc
  | n :: ns, acc =>
    match urlText n with
    | .error e => .error e
    | .ok url =>
      if containsScheme url then collectLoop ns acc
      else collectLoop ns (acc ++ [url])

/-- `collectAttachments` of src/publish.ts (lines 207-216): for every node of
type `URL`, in traversal order, push its text when it contains no `"://"`. -/
def collectAttachments (tree : ParseTree) : Except Unit (List String) :=
  collectLoop (collectNodesOfType "URL" tree) []

/-- The texts of a list of URL nodes (first-child text of each), failing
where the source would throw. -/
def urlTextsOf : List ParseTree → Except Unit (List String)
  | [] => .ok []
  | n :: ns =>
    match urlText n with
    | .error e => .error e
    | .ok url =>
      match urlTextsOf ns with
      | .error e => .error e
      | .ok us => .ok (url :: us)

/-- `collectAttachments` lifted to the possibly-deleted root. -/
def collectAttachmentsO : Option ParseTree → Except Unit (List String)
  | none => .ok []
  | some t => collectAttachments t

/-- The data computed by one `generatePage` call for one parsed page
(src/publish.ts lines 32-73): the markdown-mirror text, the collected
attachment list, the destination paths the attachments are copied to,
and the tree handed to `renderMarkdownToHtml` for the HTML body. -/
structure GenOutputs where
  publishMd : String
  attachments : List String
  attachmentWritePaths : List String
  rendererInput : Option ParseTree

/-- The per-page flow of `generatePage`: `cleanMarkdown(mdTree, …)` rewrites
`mdTree` in place (the spec-modelled `replaceNodesMatching` operates on the
owned mutable tree), so the later `collectAttachments(mdTree)` and
`renderMarkdownToHtml(mdTree, …)` both receive the rewritten tree. Each
attachment is copied to `destDir ++ "/" ++ attachment`. -/
def generatePageModel (publishConfig : PublishConfig) (publishedPages : List String)
    (destDir : String) (mdTree : ParseTree) : Except Unit GenOutputs :=
  match cleanTree publishConfig publishedPages mdTree with
  | .error e => .error e
  | .ok treeAfter =>
    match collectAttachmentsO treeAfter with
    | .error e => .error e
    | .ok atts =>
      .ok { publishMd := trimString (renderOptText treeAfter)
            attachments := atts
            attachmentWritePaths := atts.map (fun a => destDir ++ "/" ++ a)
            rendererInput := treeAfter }

/-- A runtime page-name value. The catalog's `name` field is typed `string`
but `publishAll` defends against non-string values at runtime
(`typeof page.name !== "string"`), so the model keeps the possibility. -/
inductive JName where
  | str : String → JName
  | num : Int → JName
deriving DecidableEq, Repr

def JName.isStr : JName → Bool
  | .str _ => true
  | .num _ => false

/-- A runtime `$share` front-matter value: absent, a scalar string, or an
array of strings. -/
inductive ShareVal where
  | absent
  | scalar : String → ShareVal
  | arr : List String → ShareVal
deriving DecidableEq, Repr

/-- JavaScript truthiness of a `$share` value: `undefined` and the empty
string are falsy, any array (even empty) is truthy. -/
def ShareVal.truthy : ShareVal → Bool
  | .absent => false
  | .scalar s => s ≠ ""
  | .arr _ => true

/-- One catalog entry as the selection loop sees it: `name`, optional `tags`,
optional `$share`. An absent `tags` field is `none` (falsy); `some []` is a
present, truthy, empty array. -/
structure PageMeta where
  name : JName
  tags : Option (List String)
  share : ShareVal
deriving DecidableEq, Repr

/-- `Set.add`: JavaScript `Set` insertion — append iff not yet present. -/
def setAdd (s : List JName) (x : JName) : List JName :=
  if s.contains x then s else s ++ [x]

/-- The tag rule (src/publish.ts lines 108-114): when both `config.tags` and
`page.tags` are present, add `page.name` for every page tag contained in
`config.tags`. This runs BEFORE the string sanity check on `page.name`. -/
def tagAdds (publishConfig : PublishConfig) (page : PageMeta)
    (acc : List JName) : List JName :=
  match publishConfig.tags, page.tags with
  | some cfgTags, some pageTags =>
    pageTags.foldl (fun a tag => if cfgTags.contains tag then setAdd a page.name else a) acc
  | _, _ => acc

/-- The prefix rule (lines 119-125): add the page when its (string) name
starts with a configured prefix. -/
def prefixAdds (publishConfig : PublishConfig) (s : String)
    (acc : List JName) : List JName :=
  match publishConfig.prefixes with
  | some ps =>
    ps.foldl (fun a pre => if strStartsWith s pre then setAdd a (JName.str s) else a) acc
  | none => acc

/-- `Array.isArray(page.$share) ? page.$share : [page.$share]`: the array the
share rule tests for `"pub"` (a truthy scalar is wrapped into a singleton). -/
def shareList : ShareVal → List String
  | ShareVal.arr l => l
  | ShareVal.scalar v => [v]
  | ShareVal.absent => []

/-- The share rule (lines 127-134): when `page.$share` is truthy, wrap a
non-array value into a singleton array — REASSIGNING `page.$share` — and add
the page when the array contains `"pub"`. Returns the new `$share` value and
the new published set. -/
def shareStep (page : PageMeta) (acc : List JName) : ShareVal × List JName :=
  if page.share.truthy then
    (ShareVal.arr (shareList page.share),
     if (shareList page.share).contains "pub" then setAdd acc page.name else acc)
  else (page.share, acc)

/-- One iteration of the selection loop (lines 107-135) over one page:
tag rule, then the `typeof page.name !== "string"` continue, then prefix
rule, then share rule. Returns the grown published set and the page record
as the loop leaves it (the share rule may have mutated `$share`). -/
def selectStep1 (publishConfig : PublishConfig) (acc : List JName)
    (page : PageMeta) : List JName × PageMeta :=
  let acc1 := tagAdds publishConfig page acc
  match page.name with
  | JName.num _ => (acc1, page)
  | JName.str s =>
    let acc2 := prefixAdds publishConfig s acc1
    ((shareStep page acc2).2, { page with share := (shareStep page acc2).1 })

/-- The whole selection loop: thread the published set through the pages in
order; the catalog entries come back as the loop leaves them. -/
def selectLoop (publishConfig : PublishConfig) :
    List JName → List PageMeta → List JName × List PageMeta
  | acc, [] => (acc, [])
  | acc, p :: ps =>
    ((selectLoop publishConfig (selectStep1 publishConfig acc p).1 ps).1,
     (selectStep1 publishConfig acc p).2 ::
       (selectLoop publishConfig (selectStep1 publishConfig acc p).1 ps).2)

/-- `new Map(allPages.map((pm) => [pm.name, pm]))` then `[...map.values()]`:
deduplicate by name; a later entry overwrites an earlier one's value but
keeps its position. -/
def mapSet (m : List PageMeta) (p : PageMeta) : List PageMeta :=
  if m.any (fun q => q.name == p.name) then
    m.map (fun q => if q.name == p.name then p else q)
  else m ++ [p]

def dedupByName (pages : List PageMeta) : List PageMeta :=
  pages.foldl mapSet []

/-- The published-page set of `publishAll` (lines 102-136): dedup the catalog
by name; with `publishAll` set, every name; otherwise the selection loop. -/
def computePublishedPages (publishConfig : PublishConfig)
    (allPages : List PageMeta) : List JName :=
  let pages := dedupByName allPages
  if publishConfig.publishAll then
    pages.foldl (fun s p => setAdd s p.name) []
  else
    (selectLoop publishConfig [] pages).1

/-- `const destDir = "_public"` (line 86). -/
def destDirConst : String := "_public"

/-- One attachment as returned by `space.listAttachments()`. -/
structure AttachmentMeta where
  name : String
  size : Nat
  contentType : String
  lastModified : Nat
deriving DecidableEq, Repr

/-- One `index.json` entry (`FileMeta` of the source). -/
structure FileMeta where
  name : String
  size : Nat
  contentType : String
  lastModified : Nat
  perm : String
deriving DecidableEq, Repr

/-- Prior-output cleanup (lines 93-98): the names deleted are exactly the
listed attachments whose full name starts with `destDir`, in listing
order. -/
def cleanupDeleted (destDir : String) (atts : List AttachmentMeta) : List String :=
  atts.foldl (fun acc a => if strStartsWith a.name destDir then acc ++ [a.name] else acc) []

/-- Manifest construction (lines 173-191): keep attachments under the
`destDir` prefix test, skip `text/html` entries, strip the first
`destDir.length + 1` characters from the name, set `perm := "ro"`. -/
def manifestEntries (destDir : String) (atts : List AttachmentMeta) : List FileMeta :=
  atts.foldl
    (fun acc a =>
      if strStartsWith a.name destDir then
        if a.contentType == "text/html" then acc
        else acc ++ [{ name := a.name.drop (destDir.length + 1)
                       size := a.size
                       contentType := a.contentType
                       lastModified := a.lastModified
                       perm := "ro" }]
      else acc)
    []

/-- String escaping of `JSON.stringify` for the characters that matter here
(backquote-free names): backslash and double quote. -/
def jsonEscape (s : String) : String :=
  s.foldl
    (fun acc c =>
      if c = '\\' then acc ++ "\\\\"
      else if c = '"' then acc ++ "\\\""
      else acc.push c)
    ""

def jsonStr (s : String) : String := "\"" ++ jsonEscape s ++ "\""

/-- `JSON.stringify` of one `FileMeta` object at nesting depth 1 with an
`indent`-space indentation unit. -/
def serializeFileMeta (indent : Nat) (e : FileMeta) : String :=
  let pad := String.mk (List.replicate indent ' ')
  let inner := String.mk (List.replicate (2 * indent) ' ')
  pad ++ "\x7b\n" ++
  inner ++ jsonStr "name" ++ ": " ++ jsonStr e.name ++ ",\n" ++
  inner ++ jsonStr "size" ++ ": " ++ toString e.size ++ ",\n" ++
  inner ++ jsonStr "contentType" ++ ": " ++ jsonStr e.contentType ++ ",\n" ++
  inner ++ jsonStr "lastModified" ++ ": " ++ toString e.lastModified ++ ",\n" ++
  inner ++ jsonStr "perm" ++ ": " ++ jsonStr e.perm ++ "\n" ++
  pad ++ "\x7d"

/-- `JSON.stringify(publishedFiles, null, indent)`: the array layout of
`JSON.stringify` with an `indent`-space indentation unit. -/
def serializeManifest (indent : Nat) : List FileMeta → String
  | [] => "[]"
  | e :: es =>
    "[\n" ++ serializeFileMeta indent e ++
    (es.foldl (fun acc x => acc ++ ",\n" ++ serializeFileMeta indent x) "") ++
    "\n]"

/-- The bytes written to `destDir ++ "/index.json"` (lines 192-197):
`JSON.stringify(publishedFiles, null, 2)`. -/
def indexJsonContent (destDir : String) (atts : List AttachmentMeta) : String :=
  serializeManifest 2 (manifestEntries destDir atts)

end Publish

namespace Publish

theorem mem_setAdd (s : List JName) (x y : JName) : y ∈ setAdd s x ↔ y ∈ s ∨ y = x := by
  unfold setAdd
  by_cases h : s.contains x = true
  · simp only [h, if_pos]
    have hx : x ∈ s := by simpa using h
    constructor
    · exact Or.inl
    · rintro (hy | rfl)
      · exact hy
      · exact hx
  · simp only [h]
    simp [List.mem_append, or_comm]

theorem mem_setAdd_of_mem {s : List JName} {y : JName} (x : JName) (h : y ∈ s) :
    y ∈ setAdd s x := (mem_setAdd s x y).2 (Or.inl h)

theorem self_mem_setAdd (s : List JName) (x : JName) : x ∈ setAdd s x :=
  (mem_setAdd s x x).2 (Or.inr rfl)

theorem shareStep_snd (page : PageMeta) (acc : List JName) :
    (shareStep page acc).2 =
      if page.share.truthy then
        (if (shareList page.share).contains "pub" then setAdd acc page.name else acc)
      else acc := by
  unfold shareStep; split <;> rfl

theorem shareStep_fst (page : PageMeta) (acc : List JName) :
    (shareStep page acc).1 =
      if page.share.truthy then ShareVal.arr (shareList page.share) else page.share := by
  unfold shareStep; split <;> rfl

/-- Generic: a fold of conditional `setAdd`s only grows the set. -/
theorem foldl_setAdd_cond_mono {α : Type} (cond : α → Bool) (nm : α → JName) :
    ∀ (l : List α) (acc : List JName) (x : JName), x ∈ acc →
      x ∈ l.foldl (fun a t => if cond t then setAdd a (nm t) else a) acc := by
  intro l
  induction l with
  | nil => intro acc x hx; simpa using hx
  | cons t ts ih =>
    intro acc x hx
    simp only [List.foldl_cons]
    apply ih
    by_cases h : cond t = true
    · simp only [h, if_pos]; exact mem_setAdd_of_mem _ hx
    · simpa [h] using hx

theorem tagAdds_mono (cfg : PublishConfig) (page : PageMeta) (acc : List JName)
    (x : JName) (hx : x ∈ acc) : x ∈ tagAdds cfg page acc := by
  unfold tagAdds
  cases cfg.tags with
  | none => exact hx
  | some cfgTags =>
    cases page.tags with
    | none => exact hx
    | some pageTags =>
      exact foldl_setAdd_cond_mono (fun tag => cfgTags.contains tag) (fun _ => page.name)
        pageTags acc x hx

theorem prefixAdds_mono (cfg : PublishConfig) (s : String) (acc : List JName)
    (x : JName) (hx : x ∈ acc) : x ∈ prefixAdds cfg s acc := by
  unfold prefixAdds
  cases cfg.prefixes with
  | none => exact hx
  | some ps =>
    exact foldl_setAdd_cond_mono (fun pre => strStartsWith s pre) (fun _ => JName.str s)
      ps acc x hx

theorem shareStep_mono (page : PageMeta) (acc : List JName)
    (x : JName) (hx : x ∈ acc) : x ∈ (shareStep page acc).2 := by
  rw [shareStep_snd]
  split
  · split
    · exact mem_setAdd_of_mem _ hx
    · exact hx
  · exact hx

theorem selectStep1_mono (cfg : PublishConfig) (acc : List JName) (page : PageMeta)
    (x : JName) (hx : x ∈ acc) : x ∈ (selectStep1 cfg acc page).1 := by
  unfold selectStep1
  cases hn : page.name with
  | num k => exact tagAdds_mono cfg page acc x hx
  | str s =>
    exact shareStep_mono page _ x (prefixAdds_mono cfg s _ x (tagAdds_mono cfg page acc x hx))

theorem selectLoop_mono (cfg : PublishConfig) :
    ∀ (ps : List PageMeta) (acc : List JName) (x : JName), x ∈ acc →
      x ∈ (selectLoop cfg acc ps).1 := by
  intro ps
  induction ps with
  | nil => intro acc x hx; simpa [selectLoop] using hx
  | cons p ps ih =>
    intro acc x hx
    simp only [selectLoop]
    exact ih _ x (selectStep1_mono cfg acc p x hx)

end Publish

namespace Publish

theorem mem_foldl_setAdd_name (pages : List PageMeta) :
    ∀ (init : List JName) (x : JName),
      x ∈ pages.foldl (fun s p => setAdd s p.name) init ↔
        x ∈ init ∨ x ∈ pages.map PageMeta.name := by
  induction pages with
  | nil => intro init x; simp
  | cons p ps ih =>
    intro init x
    simp only [List.foldl_cons, List.map_cons, List.mem_cons]
    rw [ih, mem_setAdd]
    tauto

theorem selectStep1_pubScalar (cfg : PublishConfig) (acc : List JName)
    (page : PageMeta) (s : String) (hn : page.name = JName.str s)
    (hs : page.share = ShareVal.scalar "pub") :
    page.name ∈ (selectStep1 cfg acc page).1 := by
  obtain ⟨nm, tg, sh⟩ := page
  simp only at hn hs
  subst hn; subst hs
  simp only [selectStep1]
  rw [shareStep_snd]
  norm_num [ShareVal.truthy, shareList]
  exact self_mem_setAdd _ _

theorem selectLoop_of_mem (cfg : PublishConfig) :
    ∀ (ps : List PageMeta) (acc : List JName) (page : PageMeta) (s : String),
      page ∈ ps → page.name = JName.str s → page.share = ShareVal.scalar "pub" →
      page.name ∈ (selectLoop cfg acc ps).1 := by
  intro ps
  induction ps with
  | nil => intro acc page s hmem; cases hmem
  | cons p rest ih =>
    intro acc page s hmem hn hs
    rcases List.mem_cons.mp hmem with rfl | hmem
    · simp only [selectLoop]
      exact selectLoop_mono cfg rest _ _ (selectStep1_pubScalar cfg acc page s hn hs)
    · simp only [selectLoop]
      exact ih _ page s hmem hn hs

/-- C6: a page whose `$share` marker is the scalar string `"pub"` (not
wrapped in a sequence) is selected: the scalar is wrapped into a one-element
array before the `includes("pub")` containment test. Stated over the
deduplicated catalog the selector runs on. -/
theorem scalar_pub_share_selected (cfg : PublishConfig) (pages : List PageMeta)
    (page : PageMeta) (s : String)
    (hmem : page ∈ dedupByName pages)
    (hn : page.name = JName.str s)
    (hs : page.share = ShareVal.scalar "pub") :
    page.name ∈ computePublishedPages cfg pages := by
  unfold computePublishedPages
  by_cases hall : cfg.publishAll = true
  · rw [hall]
    simp only [if_true]
    rw [mem_foldl_setAdd_name]
    exact Or.inr (List.mem_map_of_mem PageMeta.name hmem)
  · rw [Bool.not_eq_true] at hall
    rw [hall]
    simp only [Bool.false_eq_true, if_false]
    exact selectLoop_of_mem cfg (dedupByName pages) [] page s hmem hn hs

theorem scalar_pub_share_selected_witness :
    JName.str "A" ∈ computePublishedPages {}
      [{ name := JName.str "A", tags := none, share := ShareVal.scalar "pub" }] := by
  exact scalar_pub_share_selected {}
    [{ name := JName.str "A", tags := none, share := ShareVal.scalar "pub" }]
    { name := JName.str "A", tags := none, share := ShareVal.scalar "pub" } "A"
    (by decide) rfl rfl

end Publish

namespace Publish

/-- C4 counterexample: a catalog entry whose `name` is the number `1` (not a
string) IS contributed to the published set by the tag rule, which runs
before the `typeof page.name !== "string"` sanity check. -/
theorem tag_rule_runs_before_name_check :
    computePublishedPages { tags := some ["blog"] }
      [{ name := JName.num 1, tags := some ["blog"], share := ShareVal.absent }]
      = [JName.num 1] := by decide

/-- C4 amended: for an entry with a non-string name, the prefix check and the
share check are skipped (and the record is left untouched), but the tag rule
has already run and may have added the entry. -/
theorem nonstring_name_skips_prefix_and_share (cfg : PublishConfig)
    (acc : List JName) (page : PageMeta) (h : page.name.isStr = false) :
    selectStep1 cfg acc page = (tagAdds cfg page acc, page) := by
  obtain ⟨nm, tg, sh⟩ := page
  cases nm with
  | str s => simp [JName.isStr] at h
  | num k => rfl

theorem nonstring_name_skips_prefix_and_share_witness :
    selectStep1 { tags := some ["blog"] } []
        { name := JName.num 1, tags := some ["blog"], share := ShareVal.absent }
      = (tagAdds { tags := some ["blog"] }
          { name := JName.num 1, tags := some ["blog"], share := ShareVal.absent } [],
         { name := JName.num 1, tags := some ["blog"], share := ShareVal.absent }) :=
  nonstring_name_skips_prefix_and_share _ _ _ rfl

/-- C9 counterexample: the selection loop reassigns the `$share` field of a
catalog entry carrying a scalar share marker: the record comes back with
`$share = ["pub"]`, not the original scalar `"pub"`. -/
theorem selection_mutates_scalar_share :
    (selectLoop {} [] [{ name := JName.str "A", tags := none, share := ShareVal.scalar "pub" }]).2
        = [{ name := JName.str "A", tags := none, share := ShareVal.arr ["pub"] }] ∧
    (selectLoop {} [] [{ name := JName.str "A", tags := none, share := ShareVal.scalar "pub" }]).2
        ≠ [{ name := JName.str "A", tags := none, share := ShareVal.scalar "pub" }] := by
  constructor <;> decide

/-- The record as the selection loop leaves it: `$share` of a string-named
entry with a truthy non-array marker becomes the singleton array; nothing
else changes. -/
def selectUpdate (p : PageMeta) : PageMeta :=
  match p.name with
  | JName.num _ => p
  | JName.str _ =>
    if p.share.truthy then { p with share := ShareVal.arr (shareList p.share) } else p

theorem selectStep1_snd (cfg : PublishConfig) (acc : List JName) (page : PageMeta) :
    (selectStep1 cfg acc page).2 = selectUpdate page := by
  obtain ⟨nm, tg, sh⟩ := page
  cases nm with
  | num k => rfl
  | str s =>
    simp only [selectStep1, selectUpdate, shareStep_fst]
    split
    · rfl
    · rfl

theorem selectLoop_snd (cfg : PublishConfig) :
    ∀ (ps : List PageMeta) (acc : List JName),
      (selectLoop cfg acc ps).2 = ps.map selectUpdate := by
  intro ps
  induction ps with
  | nil => intro acc; rfl
  | cons p rest ih =>
    intro acc
    simp only [selectLoop, List.map_cons, selectStep1_snd, ih]

/-- C9 amended: page selection returns each record transformed by
`selectUpdate` only — the name and tags of every entry are untouched, an
entry whose share marker is absent/empty/already an array (or whose name is
not a string) is returned exactly as it was, and a string-named entry with a
truthy scalar marker comes back with that scalar wrapped into a singleton
array. -/
theorem selection_frame (cfg : PublishConfig) (acc : List JName) (pages : List PageMeta) :
    (selectLoop cfg acc pages).2 = pages.map selectUpdate ∧
    (∀ p : PageMeta, (selectUpdate p).name = p.name ∧ (selectUpdate p).tags = p.tags) ∧
    (∀ p : PageMeta,
      p.name.isStr = false ∨ p.share.truthy = false ∨ (∃ l, p.share = ShareVal.arr l) →
      selectUpdate p = p) ∧
    (∀ (p : PageMeta) (v s : String), p.name = JName.str s → p.share = ShareVal.scalar v →
      v ≠ "" → selectUpdate p = { p with share := ShareVal.arr [v] }) := by
  refine ⟨selectLoop_snd cfg pages acc, ?_, ?_, ?_⟩
  · intro p
    obtain ⟨nm, tg, sh⟩ := p
    cases nm with
    | num k => exact ⟨rfl, rfl⟩
    | str s =>
      simp only [selectUpdate]
      split <;> exact ⟨rfl, rfl⟩
  · intro p h
    obtain ⟨nm, tg, sh⟩ := p
    cases nm with
    | num k => rfl
    | str s =>
      simp only [selectUpdate]
      rcases h with h | h | ⟨l, rfl⟩
      · simp [JName.isStr] at h
      · simp only at h
        rw [h]
        rfl
      · simp only [ShareVal.truthy, shareList]
        rfl
  · intro p v s hn hs hv
    obtain ⟨nm, tg, sh⟩ := p
    simp only at hn hs
    subst hn; subst hs
    simp only [selectUpdate, ShareVal.truthy, shareList]
    rw [if_pos]
    simpa using hv

end Publish

namespace Publish

theorem mapSet_name_map (acc : List PageMeta) (p : PageMeta) :
    (mapSet acc p).map PageMeta.name =
      if (acc.map PageMeta.name).any (fun nm => nm == p.name)
      then (acc.map PageMeta.name).map (fun nm => if nm == p.name then p.name else nm)
      else acc.map PageMeta.name ++ [p.name] := by
  unfold mapSet
  have hany : ∀ (l : List PageMeta), (l.any (fun q => q.name == p.name))
      = (l.map PageMeta.name).any (fun nm => nm == p.name) := by
    intro l
    induction l with
    | nil => rfl
    | cons a l2 ih => simp only [List.any_cons, List.map_cons, ih]
  by_cases h : acc.any (fun q => q.name == p.name) = true
  · rw [if_pos h, if_pos ((hany acc) ▸ h)]
    rw [List.map_map, List.map_map]
    apply List.map_congr_left
    intro q _
    simp only [Function.comp_apply]
    split
    · rfl
    · rfl
  · rw [if_neg h, if_neg (fun hc => h ((hany acc) ▸ hc))]
    simp

theorem dedup_aux_names : ∀ (pages pages' acc acc' : List PageMeta),
    acc.map PageMeta.name = acc'.map PageMeta.name →
    pages.map PageMeta.name = pages'.map PageMeta.name →
    (pages.foldl mapSet acc).map PageMeta.name
      = (pages'.foldl mapSet acc').map PageMeta.name := by
  intro pages
  induction pages with
  | nil =>
    intro pages' acc acc' ha hp
    cases pages' with
    | nil => simpa using ha
    | cons q qs => simp at hp
  | cons p ps ih =>
    intro pages' acc acc' ha hp
    cases pages' with
    | nil => simp at hp
    | cons q qs =>
      simp only [List.map_cons, List.cons.injEq] at hp
      obtain ⟨hpq, hps⟩ := hp
      simp only [List.foldl_cons]
      apply ih qs _ _ _ hps
      rw [mapSet_name_map, mapSet_name_map, ha, hpq]

theorem dedupByName_names_congr (pages pages' : List PageMeta)
    (h : pages.map PageMeta.name = pages'.map PageMeta.name) :
    (dedupByName pages).map PageMeta.name = (dedupByName pages').map PageMeta.name :=
  dedup_aux_names pages pages' [] [] rfl h

theorem foldl_setAdd_congr : ∀ (l l' : List PageMeta) (init : List JName),
    l.map PageMeta.name = l'.map PageMeta.name →
    l.foldl (fun s p => setAdd s p.name) init = l'.foldl (fun s p => setAdd s p.name) init := by
  intro l
  induction l with
  | nil =>
    intro l' init h
    cases l' with
    | nil => rfl
    | cons q qs => simp at h
  | cons p ps ih =>
    intro l' init h
    cases l' with
    | nil => simp at h
    | cons q qs =>
      simp only [List.map_cons, List.cons.injEq] at h
      obtain ⟨hpq, hqs⟩ := h
      simp only [List.foldl_cons, hpq]
      exact ih qs _ hqs

/-- C3: with `publishAll` set, the published set is exactly the set of names
of the name-deduplicated catalog, and it is independent of the catalog
entries' tags, prefixes and share markers and of the configuration's `tags`
and `prefixes` (two configurations with `publishAll` and two catalogs with
the same name sequence give the same published set). -/
theorem publishAll_selects_all_names (cfg cfg' : PublishConfig)
    (pages pages' : List PageMeta)
    (h : cfg.publishAll = true) (h' : cfg'.publishAll = true)
    (hn : pages.map PageMeta.name = pages'.map PageMeta.name) :
    (∀ x, x ∈ computePublishedPages cfg pages ↔
      x ∈ (dedupByName pages).map PageMeta.name) ∧
    computePublishedPages cfg pages = computePublishedPages cfg' pages' := by
  constructor
  · intro x
    unfold computePublishedPages
    rw [h]
    simp only [if_true]
    rw [mem_foldl_setAdd_name]
    simp
  · unfold computePublishedPages
    rw [h, h']
    simp only [if_true]
    exact foldl_setAdd_congr _ _ [] (dedupByName_names_congr pages pages' hn)

theorem publishAll_selects_all_names_witness :
    (∀ x, x ∈ computePublishedPages { publishAll := true }
        [{ name := JName.str "A", tags := none, share := ShareVal.scalar "pub" },
         { name := JName.str "A", tags := some ["x"], share := ShareVal.absent },
         { name := JName.str "B", tags := none, share := ShareVal.absent }] ↔
      x ∈ (dedupByName
        [{ name := JName.str "A", tags := none, share := ShareVal.scalar "pub" },
         { name := JName.str "A", tags := some ["x"], share := ShareVal.absent },
         { name := JName.str "B", tags := none, share := ShareVal.absent }]).map PageMeta.name) ∧
    computePublishedPages { publishAll := true }
        [{ name := JName.str "A", tags := none, share := ShareVal.scalar "pub" },
         { name := JName.str "A", tags := some ["x"], share := ShareVal.absent },
         { name := JName.str "B", tags := none, share := ShareVal.absent }]
      = computePublishedPages { publishAll := true, tags := some ["blog"], prefixes := some ["A"] }
        [{ name := JName.str "A", tags := some ["blog"], share := ShareVal.arr [] },
         { name := JName.str "A", tags := none, share := ShareVal.absent },
         { name := JName.str "B", tags := some ["blog"], share := ShareVal.scalar "pub" }] :=
  publishAll_selects_all_names _ _ _ _ rfl rfl (by decide)

end Publish

namespace Publish

mutual

theorem rewriteTree_no_type (f : ParseTree → Except Unit SubstResult) (ty : String)
    (h1 : ∀ n, f n = .ok SubstResult.keep → (n.typeOf == some ty) = false)
    (h2 : ∀ n r, f n = .ok (SubstResult.replace r) → hasType ty r = false) :
    ∀ (t : ParseTree) (t' : ParseTree),
      rewriteTree f t = .ok (some t') → hasType ty t' = false
  | ParseTree.node tyo txo cs, t', h => by
    rw [rewriteTree] at h
    split at h
    · cases h
    · cases h
    · rename_i hf
      simp only [Except.ok.injEq, Option.some.injEq] at h
      subst h
      exact h2 _ _ hf
    · rename_i hf
      split at h
      · cases h
      · rename_i cs2 hl
        simp only [Except.ok.injEq, Option.some.injEq] at h
        subst h
        rw [hasType]
        have hty := h1 _ hf
        rw [ParseTree.typeOf] at hty
        rw [hty, Bool.false_or]
        exact rewriteList_no_type f ty h1 h2 cs cs2 hl

theorem rewriteList_no_type (f : ParseTree → Except Unit SubstResult) (ty : String)
    (h1 : ∀ n, f n = .ok SubstResult.keep → (n.typeOf == some ty) = false)
    (h2 : ∀ n r, f n = .ok (SubstResult.replace r) → hasType ty r = false) :
    ∀ (l : List ParseTree) (l' : List ParseTree),
      rewriteList f l = .ok l' → hasTypeList ty l' = false
  | [], l', h => by
    rw [rewriteList] at h
    simp only [Except.ok.injEq] at h
    subst h
    rfl
  | t :: ts, l', h => by
    rw [rewriteList] at h
    split at h
    · cases h
    · rename_i hh
      have := rewriteList_no_type f ty h1 h2 ts l' h
      exact this
    · rename_i t2 hh
      split at h
      · cases h
      · rename_i ts2 hl
        simp only [Except.ok.injEq] at h
        subst h
        rw [hasTypeList]
        rw [rewriteTree_no_type f ty h1 h2 t t2 hh, Bool.false_or]
        exact rewriteList_no_type f ty h1 h2 ts ts2 hl

end

end Publish

namespace Publish

theorem cleanSubst_keep_not_banned (cfg : PublishConfig) (valid : List String)
    (n : ParseTree) (h : cleanSubst cfg valid n = .ok SubstResult.keep) :
    (n.typeOf == some "Comment") = false ∧ (n.typeOf == some "CommentBlock") = false ∧
    (cfg.removeHashtags = true → (n.typeOf == some "Hashtag") = false) := by
  unfold cleanSubst at h
  split at h
  · rename_i hw
    refine ⟨?_, ?_, fun _ => ?_⟩ <;> (rw [hw]; decide)
  · rename_i hnw
    split at h
    · simp at h
    · rename_i hnc
      split at h
      · rename_i hh
        split at h
        · simp at h
        · rename_i hrh
          refine ⟨?_, ?_, fun hr => absurd hr hrh⟩
          · rw [hh]; decide
          · rw [hh]; decide
      · rename_i hnh
        push_neg at hnc
        obtain ⟨hncb, hnc⟩ := hnc
        refine ⟨?_, ?_, fun _ => ?_⟩
        · exact beq_eq_false_iff_ne.mpr hnc
        · exact beq_eq_false_iff_ne.mpr hncb
        · exact beq_eq_false_iff_ne.mpr hnh

theorem cleanSubst_replace_textNode (cfg : PublishConfig) (valid : List String)
    (n : ParseTree) (r : ParseTree)
    (h : cleanSubst cfg valid n = .ok (SubstResult.replace r)) :
    ∃ s, r = textNode s := by
  unfold cleanSubst at h
  split at h
  · split at h
    · cases h
    · rename_i page0 hok
      split at h
      · cases h
      · simp only [Except.ok.injEq, SubstResult.replace.injEq] at h
        exact ⟨_, h.symm⟩
  · split at h
    · cases h
    · split at h
      · split at h
        · cases h
        · cases h
      · cases h

theorem hasType_textNode (ty : String) (s : String) :
    hasType ty (textNode s) = false := by
  rw [textNode, hasType]
  rfl

/-- C2: after the rewrite pass of `cleanMarkdown` completes (without
throwing), the resulting tree holds no node of type `Comment` or
`CommentBlock`, and — when `removeHashtags` is configured — no node of type
`Hashtag` either. -/
theorem clean_removes_comments_and_hashtags (cfg : PublishConfig)
    (valid : List String) (t : ParseTree) (o : Option ParseTree)
    (h : cleanTree cfg valid t = .ok o) :
    hasTypeO "Comment" o = false ∧ hasTypeO "CommentBlock" o = false ∧
    (cfg.removeHashtags = true → hasTypeO "Hashtag" o = false) := by
  cases o with
  | none => exact ⟨rfl, rfl, fun _ => rfl⟩
  | some t' =>
    unfold cleanTree at h
    refine ⟨?_, ?_, fun hrm => ?_⟩
    · exact rewriteTree_no_type _ _
        (fun n hk => (cleanSubst_keep_not_banned cfg valid n hk).1)
        (fun n r hr => by
          obtain ⟨s, rfl⟩ := cleanSubst_replace_textNode cfg valid n r hr
          exact hasType_textNode _ s)
        t t' h
    · exact rewriteTree_no_type _ _
        (fun n hk => (cleanSubst_keep_not_banned cfg valid n hk).2.1)
        (fun n r hr => by
          obtain ⟨s, rfl⟩ := cleanSubst_replace_textNode cfg valid n r hr
          exact hasType_textNode _ s)
        t t' h
    · exact rewriteTree_no_type _ _
        (fun n hk => (cleanSubst_keep_not_banned cfg valid n hk).2.2 hrm)
        (fun n r hr => by
          obtain ⟨s, rfl⟩ := cleanSubst_replace_textNode cfg valid n r hr
          exact hasType_textNode _ s)
        t t' h

theorem clean_removes_comments_and_hashtags_witness :
    hasTypeO "Comment" (some (ParseTree.node (some "Document") none
        [ParseTree.node none (some "hi") []])) = false ∧
    hasTypeO "CommentBlock" (some (ParseTree.node (some "Document") none
        [ParseTree.node none (some "hi") []])) = false ∧
    (PublishConfig.removeHashtags {} = true →
      hasTypeO "Hashtag" (some (ParseTree.node (some "Document") none
        [ParseTree.node none (some "hi") []])) = false) :=
  clean_removes_comments_and_hashtags {} []
    (ParseTree.node (some "Document") none
      [ParseTree.node (some "Comment") (some "<!-- c -->") [],
       ParseTree.node (some "Hashtag") (some "#draft") [],
       ParseTree.node none (some "hi") []])
    (some (ParseTree.node (some "Document") none [ParseTree.node none (some "hi") []]))
    rfl

end Publish

namespace Publish

/-- C1: a WikiLink node whose target (after stripping an `@` suffix) is not
in the published set gets the outcome "replace with the literal text node
`_target_`" (and the rewrite pass indeed turns that node into the text
node); a WikiLink whose stripped target is in the set gets the outcome
"leave as is". -/
theorem wikiLink_rewrite (cfg : PublishConfig) (validPages : List String)
    (n : ParseTree) (page0 : String)
    (hty : n.typeOf = some "WikiLink") (ht : wikiTarget n = .ok page0) :
    (validPages.contains (stripVersion page0) = false →
      cleanSubst cfg validPages n
          = .ok (.replace (textNode ("_" ++ stripVersion page0 ++ "_"))) ∧
      rewriteTree (cleanSubst cfg validPages) n
          = .ok (some (textNode ("_" ++ stripVersion page0 ++ "_")))) ∧
    (validPages.contains (stripVersion page0) = true →
      cleanSubst cfg validPages n = .ok SubstResult.keep) := by
  constructor
  · intro hf
    have hc : cleanSubst cfg validPages n
        = .ok (.replace (textNode ("_" ++ stripVersion page0 ++ "_"))) := by
      unfold cleanSubst
      rw [if_pos hty, ht]
      dsimp only
      rw [hf]
      rfl
    refine ⟨hc, ?_⟩
    obtain ⟨ty0, tx0, cs0⟩ := n
    rw [rewriteTree, hc]
  · intro htr
    unfold cleanSubst
    rw [if_pos hty, ht]
    dsimp only
    rw [htr]
    rfl

theorem wikiLink_rewrite_witness :
    (([] : List String).contains (stripVersion "Target@2") = false →
      cleanSubst {} []
          (ParseTree.node (some "WikiLink") none
            [textNode "[[",
             ParseTree.node none none [textNode "Target@2"],
             textNode "]]"])
          = .ok (.replace (textNode ("_" ++ stripVersion "Target@2" ++ "_"))) ∧
      rewriteTree (cleanSubst {} [])
          (ParseTree.node (some "WikiLink") none
            [textNode "[[",
             ParseTree.node none none [textNode "Target@2"],
             textNode "]]"])
          = .ok (some (textNode ("_" ++ stripVersion "Target@2" ++ "_")))) ∧
    (([] : List String).contains (stripVersion "Target@2") = true →
      cleanSubst {} []
          (ParseTree.node (some "WikiLink") none
            [textNode "[[",
             ParseTree.node none none [textNode "Target@2"],
             textNode "]]"])
          = .ok SubstResult.keep) :=
  wikiLink_rewrite {} []
    (ParseTree.node (some "WikiLink") none
      [textNode "[[",
       ParseTree.node none none [textNode "Target@2"],
       textNode "]]"])
    "Target@2" rfl rfl

end Publish

namespace Publish

/-- C5 counterexample: for a page containing one comment node, the tree
handed to `renderMarkdownToHtml` is the rewritten tree (the comment is
gone), not the original parsed tree. -/
theorem renderer_input_counterexample :
    (generatePageModel {} [] "_public"
        (ParseTree.node (some "Document") none
          [ParseTree.node (some "Comment") (some "c") []])).map
        (fun g => g.rendererInput)
      = .ok (some (ParseTree.node (some "Document") none [])) ∧
    (generatePageModel {} [] "_public"
        (ParseTree.node (some "Document") none
          [ParseTree.node (some "Comment") (some "c") []])).map
        (fun g => g.rendererInput)
      ≠ .ok (some (ParseTree.node (some "Document") none
          [ParseTree.node (some "Comment") (some "c") []])) := by
  constructor
  · rfl
  · intro h
    have h2 : (Except.ok (some (ParseTree.node (some "Document") none []))
        : Except Unit (Option ParseTree))
        = .ok (some (ParseTree.node (some "Document") none
            [ParseTree.node (some "Comment") (some "c") []])) := h
    injection h2 with h3
    injection h3 with h4
    injection h4 with _ _ h5
    cases h5

/-- C5 amended: the HTML renderer receives exactly the tree left by the
cleaning pass (the source's `cleanMarkdown` rewrites `mdTree` in place
before `renderMarkdownToHtml(mdTree, …)` runs), the same tree the markdown
mirror was serialized from. -/
theorem renderer_input_is_cleaned_tree (cfg : PublishConfig) (valid : List String)
    (destDir : String) (t : ParseTree) (g : GenOutputs)
    (h : generatePageModel cfg valid destDir t = .ok g) :
    cleanTree cfg valid t = .ok g.rendererInput ∧
    g.publishMd = trimString (renderOptText g.rendererInput) := by
  unfold generatePageModel at h
  split at h
  · cases h
  · rename_i o ho
    split at h
    · cases h
    · rename_i atts ha
      simp only [Except.ok.injEq] at h
      subst h
      exact ⟨ho, rfl⟩

theorem renderer_input_is_cleaned_tree_witness :
    cleanTree {} []
        (ParseTree.node (some "Document") none
          [ParseTree.node (some "Comment") (some "c") []])
      = .ok (GenOutputs.rendererInput
          { publishMd := ""
            attachments := []
            attachmentWritePaths := []
            rendererInput := some (ParseTree.node (some "Document") none []) }) ∧
    GenOutputs.publishMd
        { publishMd := ""
          attachments := []
          attachmentWritePaths := []
          rendererInput := some (ParseTree.node (some "Document") none []) }
      = trimString (renderOptText (GenOutputs.rendererInput
          { publishMd := ""
            attachments := []
            attachmentWritePaths := []
            rendererInput := some (ParseTree.node (some "Document") none []) })) :=
  renderer_input_is_cleaned_tree {} [] "_public"
    (ParseTree.node (some "Document") none
      [ParseTree.node (some "Comment") (some "c") []])
    { publishMd := ""
      attachments := []
      attachmentWritePaths := []
      rendererInput := some (ParseTree.node (some "Document") none []) }
    rfl

end Publish

namespace Publish

theorem collectLoop_spec : ∀ (ns : List ParseTree) (acc l : List String),
    collectLoop ns acc = .ok l →
    ∃ us, urlTextsOf ns = .ok us ∧ l = acc ++ us.filter (fun u => !containsScheme u) := by
  intro ns
  induction ns with
  | nil =>
    intro acc l h
    rw [collectLoop] at h
    simp only [Except.ok.injEq] at h
    exact ⟨[], rfl, by simp [h.symm]⟩
  | cons n ns ih =>
    intro acc l h
    rw [collectLoop] at h
    split at h
    · cases h
    · rename_i url hu
      split at h
      · rename_i hs
        obtain ⟨us, hus, hl⟩ := ih acc l h
        refine ⟨url :: us, ?_, ?_⟩
        · rw [urlTextsOf, hu, hus]
        · rw [hl, List.filter_cons]
          simp [hs]
      · rename_i hs
        obtain ⟨us, hus, hl⟩ := ih (acc ++ [url]) l h
        refine ⟨url :: us, ?_, ?_⟩
        · rw [urlTextsOf, hu, hus]
        · rw [hl, List.filter_cons]
          simp [hs]

/-- C7: a successful `collectAttachments` returns exactly the texts of the
URL-type nodes whose text has no `"://"` substring, in traversal order with
duplicates permitted (the filter of the URL-node texts); no returned
attachment contains `"://"`; and `generatePage` copies each collected
attachment to `destDir ++ "/" ++ attachment`. -/
theorem collectAttachments_spec (t : ParseTree) (l : List String)
    (h : collectAttachments t = .ok l) :
    (∃ us, urlTextsOf (collectNodesOfType "URL" t) = .ok us ∧
      l = us.filter (fun u => !containsScheme u)) ∧
    (∀ u ∈ l, containsScheme u = false) ∧
    (∀ (cfg : PublishConfig) (valid : List String) (destDir : String)
        (t2 : ParseTree) (g : GenOutputs),
      generatePageModel cfg valid destDir t2 = .ok g →
      g.attachmentWritePaths = g.attachments.map (fun a => destDir ++ "/" ++ a)) := by
  obtain ⟨us, hus, hl⟩ := collectLoop_spec _ [] l h
  refine ⟨⟨us, hus, by simpa using hl⟩, ?_, ?_⟩
  · intro u hu
    rw [hl] at hu
    simp only [List.nil_append] at hu
    have := List.of_mem_filter hu
    simpa using this
  · intro cfg valid destDir t2 g hg
    unfold generatePageModel at hg
    split at hg
    · cases hg
    · split at hg
      · cases hg
      · simp only [Except.ok.injEq] at hg
        subst hg
        rfl

theorem collectAttachments_spec_witness :
    (∃ us, urlTextsOf (collectNodesOfType "URL"
        (ParseTree.node (some "Document") none
          [ParseTree.node (some "URL") none [textNode "img.png"],
           ParseTree.node (some "URL") none [textNode "https://e/x.png"],
           ParseTree.node (some "URL") none [textNode "img.png"]])) = .ok us ∧
      ["img.png", "img.png"] = us.filter (fun u => !containsScheme u)) ∧
    (∀ u ∈ ["img.png", "img.png"], containsScheme u = false) ∧
    (∀ (cfg : PublishConfig) (valid : List String) (destDir : String)
        (t2 : ParseTree) (g : GenOutputs),
      generatePageModel cfg valid destDir t2 = .ok g →
      g.attachmentWritePaths = g.attachments.map (fun a => destDir ++ "/" ++ a)) :=
  collectAttachments_spec
    (ParseTree.node (some "Document") none
      [ParseTree.node (some "URL") none [textNode "img.png"],
       ParseTree.node (some "URL") none [textNode "https://e/x.png"],
       ParseTree.node (some "URL") none [textNode "img.png"]])
    ["img.png", "img.png"] rfl

end Publish

namespace Publish

theorem manifestEntries_fold_mem (destDir : String) :
    ∀ (atts : List AttachmentMeta) (acc : List FileMeta) (e : FileMeta),
      e ∈ atts.foldl
        (fun acc a =>
          if strStartsWith a.name destDir then
            if a.contentType == "text/html" then acc
            else acc ++ [{ name := a.name.drop (destDir.length + 1)
                           size := a.size
                           contentType := a.contentType
                           lastModified := a.lastModified
                           perm := "ro" }]
          else acc) acc →
      e ∈ acc ∨ ∃ a ∈ atts, strStartsWith a.name destDir = true ∧
        a.contentType ≠ "text/html" ∧
        e = { name := a.name.drop (destDir.length + 1)
              size := a.size
              contentType := a.contentType
              lastModified := a.lastModified
              perm := "ro" } := by
  intro atts
  induction atts with
  | nil => intro acc e h; exact Or.inl h
  | cons a rest ih =>
    intro acc e h
    simp only [List.foldl_cons] at h
    by_cases hp : strStartsWith a.name destDir = true
    · by_cases hh : a.contentType = "text/html"
      · rw [if_pos hp, if_pos (by simpa using hh)] at h
        rcases ih _ e h with hacc | ⟨b, hb, hprop⟩
        · exact Or.inl hacc
        · exact Or.inr ⟨b, List.mem_cons_of_mem a hb, hprop⟩
      · rw [if_pos hp, if_neg (by simpa using hh)] at h
        rcases ih _ e h with hacc | ⟨b, hb, hprop⟩
        · rcases List.mem_append.mp hacc with h1 | h2
          · exact Or.inl h1
          · rcases List.mem_singleton.mp h2 with rfl
            exact Or.inr ⟨a, List.mem_cons_self a rest, hp, hh, rfl⟩
        · exact Or.inr ⟨b, List.mem_cons_of_mem a hb, hprop⟩
    · rw [if_neg hp] at h
      rcases ih _ e h with hacc | ⟨b, hb, hprop⟩
      · exact Or.inl hacc
      · exact Or.inr ⟨b, List.mem_cons_of_mem a hb, hprop⟩

/-- C8: every `index.json` entry comes from a listed artifact under the
output-root prefix test, has a content type other than `text/html`, carries
`perm = "ro"`, and has as name the artifact path with its first
`destDir.length + 1` characters (the root and the following separator)
removed; the written content is the entry list serialized with a 2-space
indentation unit. -/
theorem manifest_spec (destDir : String) (atts : List AttachmentMeta) :
    (∀ e ∈ manifestEntries destDir atts,
      e.contentType ≠ "text/html" ∧ e.perm = "ro" ∧
      ∃ a ∈ atts, strStartsWith a.name destDir = true ∧
        e.name = a.name.drop (destDir.length + 1) ∧ e.contentType = a.contentType ∧
        e.size = a.size ∧ e.lastModified = a.lastModified) ∧
    indexJsonContent destDir atts = serializeManifest 2 (manifestEntries destDir atts) := by
  constructor
  · intro e he
    rcases manifestEntries_fold_mem destDir atts [] e he with h0 | ⟨a, ha, hp, hh, rfl⟩
    · cases h0
    · exact ⟨hh, rfl, a, ha, hp, rfl, rfl, rfl, rfl⟩
  · rfl

end Publish

namespace Publish

theorem cleanupDeleted_fold_mem (destDir : String) :
    ∀ (atts : List AttachmentMeta) (acc : List String) (nm : String),
      nm ∈ atts.foldl
        (fun acc a => if strStartsWith a.name destDir then acc ++ [a.name] else acc) acc ↔
      nm ∈ acc ∨ ∃ a ∈ atts, a.name = nm ∧ strStartsWith nm destDir = true := by
  intro atts
  induction atts with
  | nil => intro acc nm; simp
  | cons a rest ih =>
    intro acc nm
    simp only [List.foldl_cons]
    by_cases hp : strStartsWith a.name destDir = true
    · rw [if_pos hp, ih]
      constructor
      · rintro (hacc | ⟨b, hb, rfl, hbp⟩)
        · rcases List.mem_append.mp hacc with h1 | h2
          · exact Or.inl h1
          · rcases List.mem_singleton.mp h2 with rfl
            exact Or.inr ⟨a, List.mem_cons_self a rest, rfl, hp⟩
        · exact Or.inr ⟨b, List.mem_cons_of_mem a hb, rfl, hbp⟩
      · rintro (hacc | ⟨b, hb, rfl, hbp⟩)
        · exact Or.inl (List.mem_append.mpr (Or.inl hacc))
        · rcases List.mem_cons.mp hb with rfl | hb2
          · exact Or.inl (List.mem_append.mpr (Or.inr (List.mem_singleton.mpr rfl)))
          · exact Or.inr ⟨b, hb2, rfl, hbp⟩
    · rw [if_neg hp, ih]
      constructor
      · rintro (hacc | ⟨b, hb, rfl, hbp⟩)
        · exact Or.inl hacc
        · exact Or.inr ⟨b, List.mem_cons_of_mem a hb, rfl, hbp⟩
      · rintro (hacc | ⟨b, hb, rfl, hbp⟩)
        · exact Or.inl hacc
        · rcases List.mem_cons.mp hb with rfl | hb2
          · exact absurd hbp (by rwa [show b.name = b.name from rfl] at hp)
          · exact Or.inr ⟨b, hb2, rfl, hbp⟩

/-- C10: both prior-output cleanup and the manifest listing decide "is under
the output root" by a bare `startsWith("_public")` test on the full
attachment name: an attachment named `_publicity/img.png` (not inside the
`_public` directory) is deleted by the cleanup pass, and it contributes a
manifest entry (whose name loses the first 8 characters, `_public` plus the
following character, whatever it is). -/
theorem output_root_bare_prefix_test (atts : List AttachmentMeta) :
    (∀ nm, nm ∈ cleanupDeleted destDirConst atts ↔
      ∃ a ∈ atts, a.name = nm ∧ strStartsWith nm destDirConst = true) ∧
    strStartsWith "_publicity/img.png" destDirConst = true ∧
    cleanupDeleted destDirConst
        [{ name := "_publicity/img.png", size := 1, contentType := "image/png",
           lastModified := 0 }]
      = ["_publicity/img.png"] ∧
    manifestEntries destDirConst
        [{ name := "_publicity/img.png", size := 1, contentType := "image/png",
           lastModified := 0 }]
      = [{ name := "ty/img.png", size := 1, contentType := "image/png",
           lastModified := 0, perm := "ro" }] := by
  refine ⟨?_, by decide, by decide, ?_⟩
  · intro nm
    unfold cleanupDeleted
    rw [cleanupDeleted_fold_mem]
    simp
  · decide

end Publish
